import Mathlib

/-!
Verification of the `inifile` Go library (package `inifile`, v1.2.0).

The library parses INI-style text into a section/property store
(`IniConfig`) and exposes typed accessors over the stored string values.
This file is a shallow embedding of the package's code: strings are
`List Char`, Go maps are association lists whose insertion replaces an
existing key, fallible functions return `Except` and nil-able arguments
are `Option`.  The two regular expressions of the parser
(`\[(.*)\]` for sections and `([^=]*)=(.*)` / `([^=]*):(.*)` for
properties) are embedded by executable functions that realise Go's
leftmost-first submatch semantics for exactly these patterns.
-/

namespace Inifile

/-- Strings are modelled as lists of characters. -/
abbrev Str := List Char

/-- Coercion from Lean string literals used for concrete inputs. -/
def strL (s : String) : Str := s.data

/-- Whitespace test of Go's `strings.TrimSpace` (`unicode.IsSpace`),
covering the Latin-1 range: tab, newline, vertical tab, form feed,
carriage return, space, next line, and no-break space. -/
def goIsSpace (c : Char) : Bool :=
  c = ' ' || c = '\t' || c = '\n' || c = '\x0b' || c = '\x0c' || c = '\x0d' ||
  c = '\x85' || c = '\xa0'

/-- Embedding of `strings.TrimSpace`: drop whitespace on both ends. -/
def trimList (s : Str) : Str :=
  ((s.dropWhile goIsSpace).reverse.dropWhile goIsSpace).reverse

/-- Embedding of `strings.ToLower` (ASCII range of the case tables). -/
def lowerStr (s : Str) : Str := s.map Char.toLower

/-- Embedding of `strings.ToUpper` (ASCII range of the case tables). -/
def upperStr (s : Str) : Str := s.map Char.toUpper

/-- Split a list at the first occurrence of `c`: `some (before, after)`
when `c` occurs, `none` otherwise. -/
def splitAtFirst (c : Char) : Str → Option (Str × Str)
  | [] => none
  | x :: xs =>
    if x = c then some ([], xs)
    else (splitAtFirst c xs).map (fun p => (x :: p.1, p.2))

/-- Split a list at the last occurrence of `c`. -/
def splitAtLast (c : Char) (s : Str) : Option (Str × Str) :=
  (splitAtFirst c s.reverse).map (fun p => (p.2.reverse, p.1.reverse))

/-- Submatch of the section pattern `rx_section = \[(.*)\]` under Go's
leftmost-first semantics: the capture runs from just after the first `[`
to just before the last `]` that follows it; `none` when the pattern does
not match (`MatchString` is false). -/
def sectionCapture (l : Str) : Option Str :=
  (splitAtFirst '[' l).bind (fun p => (splitAtLast ']' p.2).map (fun q => q.1))

/-- Fuelled core of `strings.Replace(s, pat, repl, -1)` for a non-empty
pattern: scan left to right, replacing each non-overlapping occurrence.
The fuel is the length of the scanned list, which bounds the recursion. -/
def replaceAllF (pat repl : Str) : Nat → Str → Str
  | _, [] => []
  | 0, s => s
  | fuel + 1, c :: rest =>
    if pat.isPrefixOf (c :: rest) then
      repl ++ replaceAllF pat repl fuel (rest.drop (pat.length - 1))
    else
      c :: replaceAllF pat repl fuel rest

/-- Behaviour of `strings.Replace` with an empty pattern: the replacement
is inserted before every character and at the end. -/
def interleaveRepl (repl : Str) : Str → Str
  | [] => repl
  | c :: rest => repl ++ c :: interleaveRepl repl rest

/-- Embedding of `strings.Replace(s, pat, repl, -1)` (replace all). -/
def replaceAll (pat repl s : Str) : Str :=
  if pat = [] then interleaveRepl repl s else replaceAllF pat repl s.length s

/-- Embedding of `strings.Split(s, sep)[0]` for a non-empty separator:
everything before the first occurrence of `sep`, or all of `s` when `sep`
does not occur. -/
def splitFirstSep (sep : Str) : Str → Str
  | [] => []
  | c :: rest =>
    if sep ≠ [] ∧ sep.isPrefixOf (c :: rest) then []
    else c :: splitFirstSep sep rest

/-- Split a line into its maximal `'='`-free segments (the list always has
one more segment than the line has `'='` characters). -/
def splitSegs : Str → List Str
  | [] => [[]]
  | c :: rest =>
    match splitSegs rest with
    | [] => [[c]]
    | seg :: segs => if c = '=' then [] :: seg :: segs else (c :: seg) :: segs

/-- Rejoin segments with the `'='` characters that separated them. -/
def joinEq : List Str → Str
  | [] => []
  | [s] => s
  | s :: rest => s ++ '=' :: joinEq rest

/-- Scan of the colon property pattern over the `'='`-free segments: the
match lives in the first segment that holds a colon; the greedy `[^=]*`
extends to the last colon of that segment, and `(.*)` takes the remainder
of the whole line. -/
def colonScan : List Str → Option (Str × Str)
  | [] => none
  | seg :: segs =>
    match splitAtLast ':' seg with
    | some (k, v) =>
      some (k, v ++ (match segs with | [] => [] | _ :: _ => '=' :: joinEq segs))
    | none => colonScan segs

/-- Submatch of `rx_colon_property = ([^=]*):(.*)` under Go's
leftmost-first semantics; `none` when the pattern does not match. -/
def colonPropMatch (l : Str) : Option (Str × Str) :=
  colonScan (splitSegs l)

/-- Submatch of `rx_property = ([^=]*)=(.*)`: the key is everything
before the first `'='`, the value everything after it. -/
def equalsPropMatch (l : Str) : Option (Str × Str) :=
  splitAtFirst '=' l

/-- Decimal rendering of a line number, for the `%d` of `errorf`. -/
def natStr (n : Nat) : Str := (Nat.repr n).data

/-- A string that records whether `Set` was ever called on it, so that an
explicitly assigned empty string differs from the zero value. -/
structure NilableString where
  val : Str
  set : Bool
deriving DecidableEq, Repr

/-- Embedding of `nilableString.Set`: store the value and mark it set. -/
def NilableString.Set (ns : NilableString) (v : Str) : NilableString :=
  { ns with val := v, set := true }

/-- Embedding of `newNilableString`: a fresh zero value with `Set` called
on it. -/
def newNilableString (v : Str) : NilableString :=
  NilableString.Set { val := [], set := false } v

/-- Embedding of `nilableString.String`. -/
def NilableString.String (ns : NilableString) : Str := ns.val

/-- Embedding of `nilableString.IsSet`. -/
def NilableString.IsSet (ns : NilableString) : Bool := ns.set

/-- Embedding of the `IniOptions` struct. -/
structure IniOptions where
  CaseSensitive : Bool
  CommentStart : Str
  TrimProperties : Bool
  TolerateBlankLines : Bool
  AllowGlobalSection : Bool
  DiscardPropertiesWithNoValue : Bool
  UseGoBoolRules : Bool
  StrictBoolTrue : Str
  StrictBoolFalse : Str
  StrictBoolCaseSensitive : Bool
  IgnoreUnparseable : Bool
  AllowInlineComments : Bool
  CommentEscapePrefix : Str
  StripEnclosingQuotes : Bool
  EnclosingQuoteSymbols : List Char
  UseColonAssignment : Bool
deriving DecidableEq, Repr

/-- Embedding of `DefaultIniOptions` (unassigned fields of
`new(IniOptions)` keep the Go zero value, here `StrictBoolTrue` and
`StrictBoolFalse` stay empty). -/
def DefaultIniOptions : IniOptions where
  CaseSensitive := true
  CommentStart := strL ";"
  TrimProperties := true
  TolerateBlankLines := true
  AllowGlobalSection := true
  DiscardPropertiesWithNoValue := true
  UseGoBoolRules := true
  StrictBoolTrue := []
  StrictBoolFalse := []
  StrictBoolCaseSensitive := true
  IgnoreUnparseable := false
  AllowInlineComments := false
  CommentEscapePrefix := strL "\\"
  StripEnclosingQuotes := false
  EnclosingQuoteSymbols := ['\'', '"']
  UseColonAssignment := false

/-- A Go map's lookup over an association list: `nil` (here `none`) when
the key is absent. -/
def alookup {β : Type} (k : Str) : List (Str × β) → Option β
  | [] => none
  | (k', v) :: rest => if k' = k then some v else alookup k rest

/-- A Go map's keyed assignment: replace the entry when the key exists,
append it otherwise. -/
def ainsert {β : Type} (k : Str) (v : β) : List (Str × β) → List (Str × β)
  | [] => [(k, v)]
  | (k', v') :: rest =>
    if k' = k then (k, v) :: rest else (k', v') :: ainsert k v rest

/-- The property map of one section. -/
abbrev PropMap := List (Str × NilableString)

/-- Embedding of `sectionPropertyMap`. -/
abbrev SectionMap := List (Str × PropMap)

/-- Reserved name of the global (unsectioned) region. -/
def GLOBAL_SECTION : Str := []

/-- Embedding of `IniConfig.normalise`: lower-case names unless lookups
are case sensitive. -/
def normalise (opts : IniOptions) (s : Str) : Str :=
  if opts.CaseSensitive then s else lowerStr s

/-- Embedding of `IniConfig.Add` on the raw section map: normalise both
names, create the section when absent, then insert-or-overwrite the
property with a freshly `Set` value. -/
def addProp (opts : IniOptions) (m : SectionMap)
    (sectionName propertyName value : Str) : SectionMap :=
  match alookup (normalise opts sectionName) m with
  | none =>
    ainsert (normalise opts sectionName)
      [(normalise opts propertyName, newNilableString value)] m
  | some stored =>
    ainsert (normalise opts sectionName)
      (ainsert (normalise opts propertyName) (newNilableString value) stored) m

/-- Embedding of the `IniConfig` struct. -/
structure IniConfig where
  sections : SectionMap
  options : IniOptions
deriving DecidableEq, Repr

/-- Embedding of `IniConfig.findSection`. -/
def IniConfig.findSection (ic : IniConfig) (sectionName : Str) : Option PropMap :=
  alookup (normalise ic.options sectionName) ic.sections

/-- Embedding of `IniConfig.SectionExists`. -/
def IniConfig.SectionExists (ic : IniConfig) (sectionName : Str) : Bool :=
  (ic.findSection sectionName).isSome

/-- Embedding of `IniConfig.PropertyExists`. -/
def IniConfig.PropertyExists (ic : IniConfig) (sectionName propertyName : Str) : Bool :=
  match ic.findSection sectionName with
  | none => false
  | some foundSection => (alookup (normalise ic.options propertyName) foundSection).isSome

/-- Embedding of `IniConfig.Value`. -/
def IniConfig.Value (ic : IniConfig) (sectionName propertyName : Str) : Except Str Str :=
  match ic.findSection sectionName with
  | none => .error (strL "No such section " ++ sectionName)
  | some sec =>
    match alookup (normalise ic.options propertyName) sec with
    | none =>
      .error (strL "No such property [" ++ sectionName ++ strL "]." ++
        normalise ic.options propertyName)
    | some value => .ok value.String

/-- Embedding of `IniConfig.ValueOrZero`. -/
def IniConfig.ValueOrZero (ic : IniConfig) (sectionName propertyName : Str) : Str :=
  match ic.Value sectionName propertyName with
  | .ok v => v
  | .error _ => []

/-- Embedding of `IniConfig.Add`. -/
def IniConfig.Add (ic : IniConfig) (sectionName propertyName value : Str) : IniConfig :=
  { ic with sections := addProp ic.options ic.sections sectionName propertyName value }

/-- Inner loop of `stripQuotes`: Go ranges over the configured quote
symbols and strips at the first symbol enclosing the value. -/
def quoteScan (value : Str) : List Char → Str
  | [] => value
  | r :: rs =>
    if value.head? = some r ∧ value.getLast? = some r then
      (value.drop 1).dropLast
    else quoteScan value rs

/-- Embedding of `IniConfig.stripQuotes`: with `StripEnclosingQuotes` and
a value of length at least 2 whose first and last characters both equal a
configured quote symbol, drop exactly those two characters. -/
def stripQuotes (opts : IniOptions) (value : Str) : Str :=
  if opts.StripEnclosingQuotes = false ∨ value.length < 2 then value
  else quoteScan value opts.EnclosingQuoteSymbols

/-- The private placeholder `ph` of `stripInlineComments`. -/
def escPlaceholder : Str := strL "[ESC_PH?]"

/-- Embedding of `IniConfig.stripInlineComments`: shield every
`CommentEscapePrefix ++ CommentStart` occurrence behind the placeholder,
cut the line at the first remaining `CommentStart`, then turn the
placeholder back into the literal `CommentStart` text. -/
def stripInlineComments (opts : IniOptions) (line : Str) : Str :=
  if opts.AllowInlineComments = false then line
  else
    let escapeSeq := opts.CommentEscapePrefix ++ opts.CommentStart
    let l1 := replaceAll escapeSeq escPlaceholder line
    let l2 := splitFirstSep opts.CommentStart l1
    replaceAll escPlaceholder opts.CommentStart l2

/-- The property regular expression chosen by `parse`:
`rx_colon_property` under `UseColonAssignment`, `rx_property` otherwise. -/
def propMatch (opts : IniOptions) (l : Str) : Option (Str × Str) :=
  if opts.UseColonAssignment then colonPropMatch l else equalsPropMatch l

/-- Message of the blank-line error of `parse`. -/
def msgBlankLine (n : Nat) : Str :=
  strL "Blank line on line " ++ natStr n ++ strL " (forbidden in IniOptions)"

/-- Message of the outside-section error of `parse`. -/
def msgGlobalForbidden (n : Nat) : Str :=
  strL "Property on line " ++ natStr n ++
    strL " is outside of a named section (forbidden in IniOptions)"

/-- Message of the unparseable-line error of `parse`. -/
def msgUnparseable (n : Nat) : Str :=
  strL "Unparseable line in file at line " ++ natStr n

/-- Body of the scanning loop of `IniConfig.parse` for one line at the
1-based line number `n`: classify the trimmed line as blank, comment,
section header, property or unparseable, and return the updated store and
current-section name.  Go's `key`/`value` rebinding chain (trim, then
quote stripping of the value) is inlined at the two use sites, and the
two `len(matches)` guards of the Go loop cannot fire (each pattern has
exactly one and two capture groups), so they have no counterpart here. -/
def parseStep (opts : IniOptions) (line sec : Str) (m : SectionMap) (n : Nat) :
    Except Str (SectionMap × Str) :=
  if (trimList line).length = 0 ∧ opts.TolerateBlankLines = false then
    .error (msgBlankLine n)
  else if (trimList line).length = 0 ∨
      opts.CommentStart.isPrefixOf (trimList line) = true then
    .ok (m, sec)
  else
    match sectionCapture (stripInlineComments opts (trimList line)) with
    | some name => .ok (m, name)
    | none =>
      match propMatch opts (stripInlineComments opts (trimList line)) with
      | some (key, value) =>
        if sec = GLOBAL_SECTION ∧ opts.AllowGlobalSection = false then
          .error (msgGlobalForbidden n)
        else
          if (stripQuotes opts (if opts.TrimProperties then trimList value else value)).length > 0 ∨
              opts.DiscardPropertiesWithNoValue = false then
            .ok (addProp opts m sec
              (if opts.TrimProperties then trimList key else key)
              (stripQuotes opts (if opts.TrimProperties then trimList value else value)), sec)
          else .ok (m, sec)
      | none =>
        if opts.IgnoreUnparseable = false then .error (msgUnparseable n)
        else .ok (m, sec)

/-- Embedding of the scanning loop of `IniConfig.parse`, threading the
current section name, the section map built so far and the line counter
through `parseStep`; the first failing line aborts the loop. -/
def parseLoop (opts : IniOptions) :
    List Str → Str → SectionMap → Nat → Except Str (SectionMap × Str × Nat)
  | [], sec, m, lineNumber => .ok (m, sec, lineNumber)
  | line :: rest, sec, m, lineNumber =>
    match parseStep opts line sec m (lineNumber + 1) with
    | .error e => .error e
    | .ok (m', sec') => parseLoop opts rest sec' m' (lineNumber + 1)

/-- Embedding of `IniConfig.parse` on a file already split into lines:
the loop starts in the global section with an empty store at line 0. -/
def parseLines (opts : IniOptions) (lines : List Str) : Except Str SectionMap :=
  (parseLoop opts lines GLOBAL_SECTION [] 0).map (fun st => st.1)

/-- Embedding of `NewIniConfigFromFileWithOptions`: a nil file, nil
options and a blank `CommentStart` are rejected before parsing; the first
parse error is returned and no `IniConfig` is produced alongside it. -/
def NewIniConfigFromFileWithOptions (file : Option (List Str))
    (options : Option IniOptions) : Except Str IniConfig :=
  match file with
  | none => .error (strL "Nil file provided")
  | some lines =>
    match options with
    | none => .error (strL "Nil IniOptions provided")
    | some opts =>
      if (trimList opts.CommentStart).length = 0 then
        .error (strL "CommentStart field in IniOptions cannot be empty")
      else
        match parseLines opts lines with
        | .error e => .error e
        | .ok m => .ok { sections := m, options := opts }

/-- Embedding of `strconv.ParseBool`: exactly the enumerated truthy and
falsy spellings are accepted. -/
def goParseBool (s : Str) : Option Bool :=
  if s = strL "1" ∨ s = strL "t" ∨ s = strL "T" ∨ s = strL "TRUE" ∨
      s = strL "true" ∨ s = strL "True" then some true
  else if s = strL "0" ∨ s = strL "f" ∨ s = strL "F" ∨ s = strL "FALSE" ∨
      s = strL "false" ∨ s = strL "False" then some false
  else none

/-- Numeric value of a string of decimal digits. -/
def digitsVal (s : Str) : Nat :=
  s.foldl (fun acc c => acc * 10 + (c.toNat - 48)) 0

/-- Embedding of `strconv.ParseUint(s, 10, 64)`: decimal digits only, no
sign, value below `2^64`; the range error of Go is a plain failure here. -/
def goParseUint64 (s : Str) : Option Nat :=
  if s ≠ [] ∧ s.all Char.isDigit = true ∧ digitsVal s < 2 ^ 64 then
    some (digitsVal s)
  else none

/-- Embedding of `strconv.ParseInt(s, 10, 64)`: an optional sign before
decimal digits, with the asymmetric two's-complement range. -/
def goParseInt64 (s : Str) : Option Int :=
  match s with
  | [] => none
  | c :: rest =>
    let neg := c = '-'
    let digits := if c = '-' ∨ c = '+' then rest else s
    if digits ≠ [] ∧ digits.all Char.isDigit = true then
      let n := digitsVal digits
      if neg then
        if n ≤ 2 ^ 63 then some (-(n : Int)) else none
      else
        if n < 2 ^ 63 then some (n : Int) else none
    else none

/-- Modelled from the spec: `ValueAsFloat64` delegates to the standard
base-10 floating-point parsing of `strconv.ParseFloat(s, 64)`, whose body
is Go library code outside this repository.  The accepted shape is an
optional sign, a digit sequence with an optional fractional part (at
least one digit overall) and an optional decimal exponent; the value is
kept as an exact rational, so IEEE rounding, infinities, NaN spellings,
hexadecimal floats and digit-group underscores are outside the model. -/
def goParseFloatQ (s : Str) : Option ℚ :=
  match s with
  | [] => none
  | _ =>
    let neg := s.head? = some '-'
    let s1 := if s.head? = some '-' ∨ s.head? = some '+' then s.drop 1 else s
    let mantExp : Str × Option Str :=
      match splitAtFirst 'e' s1 with
      | some (m, e) => (m, some e)
      | none =>
        match splitAtFirst 'E' s1 with
        | some (m, e) => (m, some e)
        | none => (s1, none)
    let mant := mantExp.1
    let ipfp : Str × Str :=
      match splitAtFirst '.' mant with
      | some (ip, fp) => (ip, fp)
      | none => (mant, [])
    let digits := ipfp.1 ++ ipfp.2
    if digits = [] ∨ digits.all Char.isDigit = false then none
    else
      let expVal : Option Int :=
        match mantExp.2 with
        | none => some 0
        | some e =>
          let eneg := e.head? = some '-'
          let ed := if e.head? = some '-' ∨ e.head? = some '+' then e.drop 1 else e
          if ed ≠ [] ∧ ed.all Char.isDigit = true then
            some (if eneg then -(digitsVal ed : Int) else (digitsVal ed : Int))
          else none
      match expVal with
      | none => none
      | some ex =>
        let base : ℚ := (digitsVal digits : ℚ) / (10 : ℚ) ^ ipfp.2.length
        some ((if neg then -1 else 1) * base * (10 : ℚ) ^ ex)

/-- Embedding of `IniConfig.ValueAsFloat64` (values as exact rationals,
see `goParseFloatQ`). -/
def IniConfig.ValueAsFloat64 (ic : IniConfig) (sectionName propertyName : Str) :
    Except Str ℚ :=
  match ic.Value sectionName propertyName with
  | .error e => .error e
  | .ok sv =>
    match goParseFloatQ sv with
    | some v => .ok v
    | none =>
      .error (strL "Unable to interpret [" ++ sectionName ++ strL "]." ++
        propertyName ++ strL " (" ++ sv ++ strL ") as a float64.")

/-- Embedding of `IniConfig.ValueOrZeroAsFloat64`. -/
def IniConfig.ValueOrZeroAsFloat64 (ic : IniConfig) (sectionName propertyName : Str) : ℚ :=
  match ic.ValueAsFloat64 sectionName propertyName with
  | .ok v => v
  | .error _ => 0

/-- Embedding of `IniConfig.ValueAsInt64`. -/
def IniConfig.ValueAsInt64 (ic : IniConfig) (sectionName propertyName : Str) :
    Except Str Int :=
  match ic.Value sectionName propertyName with
  | .error e => .error e
  | .ok sv =>
    match goParseInt64 sv with
    | some v => .ok v
    | none =>
      .error (strL "Unable to interpret [" ++ sectionName ++ strL "]." ++
        propertyName ++ strL " (" ++ sv ++ strL ") as an int64.")

/-- Embedding of `IniConfig.ValueOrZeroAsInt64`. -/
def IniConfig.ValueOrZeroAsInt64 (ic : IniConfig) (sectionName propertyName : Str) : Int :=
  match ic.ValueAsInt64 sectionName propertyName with
  | .ok v => v
  | .error _ => 0

/-- Embedding of `IniConfig.ValueAsUint64`. -/
def IniConfig.ValueAsUint64 (ic : IniConfig) (sectionName propertyName : Str) :
    Except Str Nat :=
  match ic.Value sectionName propertyName with
  | .error e => .error e
  | .ok sv =>
    match goParseUint64 sv with
    | some v => .ok v
    | none =>
      .error (strL "Unable to interpret [" ++ sectionName ++ strL "]." ++
        propertyName ++ strL " (" ++ sv ++ strL ") as a uint64.")

/-- Embedding of `IniConfig.ValueOrZeroAsUint64`. -/
def IniConfig.ValueOrZeroAsUint64 (ic : IniConfig) (sectionName propertyName : Str) : Nat :=
  match ic.ValueAsUint64 sectionName propertyName with
  | .ok v => v
  | .error _ => 0

/-- Message of the failed strict boolean match, naming both configured
target strings. -/
def msgStrictBool (sectionName propertyName origSv strictTrue strictFalse : Str) : Str :=
  strL "Value of [" ++ sectionName ++ strL "]." ++ propertyName ++ strL " (" ++
    origSv ++ strL ") could not be matched to " ++ strictTrue ++ strL " or " ++
    strictFalse

/-- Embedding of `IniConfig.ValueAsBool`: Go rules under
`UseGoBoolRules`, otherwise strict matching against `StrictBoolTrue` and
`StrictBoolFalse`, uppercasing all three strings when the match is case
insensitive. -/
def IniConfig.ValueAsBool (ic : IniConfig) (sectionName propertyName : Str) :
    Except Str Bool :=
  match ic.Value sectionName propertyName with
  | .error e => .error e
  | .ok sv =>
    if ic.options.UseGoBoolRules then
      match goParseBool sv with
      | some bv => .ok bv
      | none =>
        .error (strL "Unable to interpret [" ++ sectionName ++ strL "]." ++
          propertyName ++ strL " as a Go bool.")
    else
      let strictTrue :=
        if ic.options.StrictBoolCaseSensitive then ic.options.StrictBoolTrue
        else upperStr ic.options.StrictBoolTrue
      let strictFalse :=
        if ic.options.StrictBoolCaseSensitive then ic.options.StrictBoolFalse
        else upperStr ic.options.StrictBoolFalse
      let sv' := if ic.options.StrictBoolCaseSensitive then sv else upperStr sv
      if sv' = strictTrue then .ok true
      else if sv' = strictFalse then .ok false
      else
        .error (msgStrictBool sectionName propertyName sv
          ic.options.StrictBoolTrue ic.options.StrictBoolFalse)

/-- Embedding of `IniConfig.ValueOrZeroAsBool`. -/
def IniConfig.ValueOrZeroAsBool (ic : IniConfig) (sectionName propertyName : Str) : Bool :=
  match ic.ValueAsBool sectionName propertyName with
  | .ok v => v
  | .error _ => false

/-- A line the scanning loop passes over without effect: blank while
blank lines are tolerated, or a whole-line comment. -/
def skippable (opts : IniOptions) (line : Str) : Prop :=
  (trimList line = [] ∧ opts.TolerateBlankLines = true) ∨
  (trimList line ≠ [] ∧ opts.CommentStart.isPrefixOf (trimList line) = true)

instance (opts : IniOptions) (line : Str) : Decidable (skippable opts line) := by
  unfold skippable
  exact inferInstance

/-- Every property value cell in the store has its `set` flag raised. -/
def storeSet (m : SectionMap) : Bool :=
  m.all (fun sec => sec.2.all (fun pr => pr.2.set))

/-- The strict-mode boolean comparison of `ValueAsBool`: exact equality
when case sensitive, equality of the uppercased strings otherwise. -/
def strictMatch (opts : IniOptions) (target v : Str) : Prop :=
  (opts.StrictBoolCaseSensitive = true ∧ v = target) ∨
  (opts.StrictBoolCaseSensitive = false ∧ upperStr v = upperStr target)

instance (opts : IniOptions) (target v : Str) : Decidable (strictMatch opts target v) := by
  unfold strictMatch
  exact inferInstance

/-- Default options with inline comments allowed (the configuration of
the inline-comment examples). -/
def inlineOpts : IniOptions :=
  { DefaultIniOptions with AllowInlineComments := true }

/-- Default options with colon assignment (the configuration of the
colon-mode examples). -/
def colonOpts : IniOptions :=
  { DefaultIniOptions with UseColonAssignment := true }

/-- Default options with quote stripping (the configuration of the
quote examples). -/
def quoteOpts : IniOptions :=
  { DefaultIniOptions with StripEnclosingQuotes := true }

/-- Default options with the global section forbidden. -/
def noGlobalOpts : IniOptions :=
  { DefaultIniOptions with AllowGlobalSection := false }

/-- Default options with case-insensitive name lookups. -/
def insensitiveOpts : IniOptions :=
  { DefaultIniOptions with CaseSensitive := false }

/-- The strict-boolean configuration of the spec's example:
`StrictBoolTrue = "True"`, `StrictBoolFalse = "False"`, case-insensitive
matching. -/
def strictOpts : IniOptions :=
  { DefaultIniOptions with
      UseGoBoolRules := false
      StrictBoolTrue := strL "True"
      StrictBoolFalse := strL "False"
      StrictBoolCaseSensitive := false }

/-- A store under `strictOpts` holding `[s] a=true, b=TRUE, c=1`. -/
def strictCfg : IniConfig :=
  (((IniConfig.mk [] strictOpts).Add (strL "s") (strL "a") (strL "true")).Add
      (strL "s") (strL "b") (strL "TRUE")).Add (strL "s") (strL "c") (strL "1")

/-- A case-insensitive store holding `[AbC] Key1=v`. -/
def insensitiveCfg : IniConfig :=
  (IniConfig.mk [] insensitiveOpts).Add (strL "AbC") (strL "Key1") (strL "v")

/-- A case-sensitive store holding `[AbC] Key1=v`. -/
def sensitiveCfg : IniConfig :=
  (IniConfig.mk [] DefaultIniOptions).Add (strL "AbC") (strL "Key1") (strL "v")

deriving instance DecidableEq for Except

theorem splitAtFirst_some_iff (c : Char) (l a b : Str) :
    splitAtFirst c l = some (a, b) ↔ l = a ++ c :: b ∧ c ∉ a := by
  induction l generalizing a with
  | nil =>
    simp only [splitAtFirst]
    constructor
    · intro h; cases h
    · rintro ⟨h, -⟩; cases a <;> simp at h
  | cons x xs ih =>
    simp only [splitAtFirst]
    by_cases hx : x = c
    · subst hx
      simp only [if_pos rfl]
      constructor
      · intro h
        cases h
        exact ⟨rfl, List.not_mem_nil x⟩
      · rintro ⟨h, hna⟩
        cases a with
        | nil => simp at h; simp [h]
        | cons a0 a' =>
          exfalso
          apply hna
          have : a0 = x := by simpa using congrArg (fun t => t.head?) h.symm
          simp [this]
    · rw [if_neg hx]
      constructor
      · intro h
        cases hs : splitAtFirst c xs with
        | none => rw [hs] at h; cases h
        | some p =>
          rw [hs] at h
          simp only [Option.map_some'] at h
          cases h
          have := (ih p.1).mp hs
          refine ⟨by simp [this.1], ?_⟩
          simp only [List.mem_cons, not_or]
          exact ⟨fun hc => hx hc.symm, this.2⟩
      · rintro ⟨h, hna⟩
        cases a with
        | nil =>
          exfalso
          have : x = c := by simpa using congrArg (fun t => t.head?) h
          exact hx this
        | cons a0 a' =>
          have hx0 : a0 = x := by simpa using congrArg (fun t => t.head?) h.symm
          subst hx0
          have hxs : xs = a' ++ c :: b := by simpa using congrArg List.tail h
          have hna' : c ∉ a' := fun hc => hna (List.mem_cons_of_mem _ hc)
          rw [(ih a').mpr ⟨hxs, hna'⟩]
          simp

theorem splitAtFirst_none_iff (c : Char) (l : Str) :
    splitAtFirst c l = none ↔ c ∉ l := by
  induction l with
  | nil => simp [splitAtFirst]
  | cons x xs ih =>
    simp only [splitAtFirst]
    by_cases hx : x = c
    · subst hx; simp
    · rw [if_neg hx]
      cases hs : splitAtFirst c xs with
      | none =>
        simp only [Option.map_none']
        simp only [List.mem_cons, not_or]
        constructor
        · intro _; exact ⟨fun hc => hx hc.symm, ih.mp hs⟩
        · intro _; trivial
      | some p =>
        simp only [Option.map_some']
        constructor
        · intro h; cases h
        · intro h
          rw [ih.mpr (fun hc => h (List.mem_cons_of_mem _ hc))] at hs
          cases hs

theorem splitAtLast_some_iff (c : Char) (l a b : Str) :
    splitAtLast c l = some (a, b) ↔ l = a ++ c :: b ∧ c ∉ b := by
  unfold splitAtLast
  constructor
  · intro h
    cases hs : splitAtFirst c l.reverse with
    | none => rw [hs] at h; cases h
    | some p =>
      rw [hs] at h
      simp only [Option.map_some'] at h
      cases h
      have := (splitAtFirst_some_iff c l.reverse p.1 p.2).mp hs
      constructor
      · have := congrArg List.reverse this.1
        simpa [List.reverse_append] using this
      · intro hc
        exact this.2 (by simpa using hc)
  · rintro ⟨h, hnb⟩
    subst h
    have : (a ++ c :: b).reverse = b.reverse ++ c :: a.reverse := by
      simp [List.reverse_append]
    rw [this,
      (splitAtFirst_some_iff c _ b.reverse a.reverse).mpr
        ⟨rfl, fun hc => hnb (by simpa using hc)⟩]
    simp

theorem splitAtLast_none_iff (c : Char) (l : Str) :
    splitAtLast c l = none ↔ c ∉ l := by
  unfold splitAtLast
  cases hs : splitAtFirst c l.reverse with
  | none =>
    have := (splitAtFirst_none_iff c l.reverse).mp hs
    simp only [Option.map_none']
    constructor
    · intro _ hc; exact this (by simpa using hc)
    · intro _; trivial
  | some p =>
    simp only [Option.map_some']
    constructor
    · intro h; cases h
    · intro h
      rw [(splitAtFirst_none_iff c l.reverse).mpr (fun hc => h (by simpa using hc))] at hs
      cases hs

theorem alookup_ainsert {β : Type} (k k' : Str) (v : β) (m : List (Str × β)) :
    alookup k (ainsert k' v m) = if k' = k then some v else alookup k m := by
  induction m with
  | nil => simp [ainsert, alookup]
  | cons e rest ih =>
    simp only [ainsert]
    by_cases he : e.1 = k'
    · rw [if_pos he]
      by_cases hk : k' = k
      · simp [alookup, hk]
      · simp [alookup, hk, he, ih]
    · rw [if_neg he]
      by_cases hk : k' = k
      · subst hk
        simp [alookup, he, ih]
      · by_cases hek : e.1 = k
        · simp [alookup, hek, hk]
        · simp [alookup, hek, hk, ih]

theorem alookup_mem {β : Type} {k : Str} {v : β} {m : List (Str × β)}
    (h : alookup k m = some v) : (k, v) ∈ m := by
  induction m with
  | nil => cases h
  | cons e rest ih =>
    simp only [alookup] at h
    by_cases he : e.1 = k
    · rw [if_pos he] at h
      cases h
      obtain ⟨e1, e2⟩ := e
      subst he
      exact List.mem_cons_self _ _
    · rw [if_neg he] at h
      exact List.mem_cons_of_mem _ (ih h)

theorem mem_ainsert {β : Type} {x : Str × β} {k : Str} {v : β} {m : List (Str × β)}
    (h : x ∈ ainsert k v m) : x = (k, v) ∨ x ∈ m := by
  induction m with
  | nil => simpa [ainsert] using h
  | cons e rest ih =>
    simp only [ainsert] at h
    by_cases he : e.1 = k
    · rw [if_pos he] at h
      rcases List.mem_cons.mp h with h' | h'
      · exact Or.inl h'
      · exact Or.inr (List.mem_cons_of_mem _ h')
    · rw [if_neg he] at h
      rcases List.mem_cons.mp h with h' | h'
      · exact Or.inr (by simp [h'])
      · rcases ih h' with h'' | h''
        · exact Or.inl h''
        · exact Or.inr (List.mem_cons_of_mem _ h'')

theorem stripInline_off {opts : IniOptions} (h : opts.AllowInlineComments = false)
    (l : Str) : stripInlineComments opts l = l := by
  simp [stripInlineComments, h]

theorem stripQuotes_off {opts : IniOptions} (h : opts.StripEnclosingQuotes = false)
    (v : Str) : stripQuotes opts v = v := by
  simp [stripQuotes, h]

theorem normalise_nil (opts : IniOptions) : normalise opts [] = [] := by
  by_cases h : opts.CaseSensitive = true <;> simp [normalise, h, lowerStr]

theorem quoteScan_strip (v : Str) (qs : List Char)
    (h : ∃ r ∈ qs, v.head? = some r ∧ v.getLast? = some r) :
    quoteScan v qs = (v.drop 1).dropLast := by
  induction qs with
  | nil => simp at h
  | cons r rs ih =>
    simp only [quoteScan]
    by_cases hr : v.head? = some r ∧ v.getLast? = some r
    · rw [if_pos hr]
    · rw [if_neg hr]
      apply ih
      rcases h with ⟨r', hr', hh⟩
      rcases List.mem_cons.mp hr' with h' | h'
      · exact absurd (h' ▸ hh) hr
      · exact ⟨r', h', hh⟩

theorem quoteScan_id (v : Str) (qs : List Char)
    (h : ∀ r ∈ qs, ¬(v.head? = some r ∧ v.getLast? = some r)) :
    quoteScan v qs = v := by
  induction qs with
  | nil => simp [quoteScan]
  | cons r rs ih =>
    simp only [quoteScan]
    rw [if_neg (h r (List.mem_cons_self r rs))]
    exact ih (fun r' h' => h r' (List.mem_cons_of_mem _ h'))

theorem parseLoop_append (opts : IniOptions) (xs ys : List Str) (sec : Str)
    (m : SectionMap) (n : Nat) :
    parseLoop opts (xs ++ ys) sec m n =
      match parseLoop opts xs sec m n with
      | .error e => .error e
      | .ok st => parseLoop opts ys st.2.1 st.1 st.2.2 := by
  induction xs generalizing sec m n with
  | nil => simp [parseLoop]
  | cons x xs ih =>
    simp only [List.cons_append, parseLoop]
    cases parseStep opts x sec m (n + 1) with
    | error e => rfl
    | ok st =>
      obtain ⟨m', sec'⟩ := st
      exact ih ..

theorem parseStep_skip {opts : IniOptions} {line : Str} (h : skippable opts line)
    (sec : Str) (m : SectionMap) (n : Nat) :
    parseStep opts line sec m n = .ok (m, sec) := by
  rcases h with ⟨hb, ht⟩ | ⟨hb, hc⟩
  · unfold parseStep
    rw [if_neg (by simp [hb, ht]), if_pos (by simp [hb])]
  · unfold parseStep
    rw [if_neg (by simp [hb]), if_pos (Or.inr hc)]

theorem parseLoop_skipAll {opts : IniOptions} {pre : List Str}
    (h : ∀ x ∈ pre, skippable opts x) (rest : List Str) (sec : Str)
    (m : SectionMap) (n : Nat) :
    parseLoop opts (pre ++ rest) sec m n = parseLoop opts rest sec m (n + pre.length) := by
  induction pre generalizing n with
  | nil => simp
  | cons x xs ih =>
    simp only [List.cons_append, parseLoop,
      parseStep_skip (h x (List.mem_cons_self x xs)) sec m (n + 1)]
    rw [List.append_eq, ih (fun y hy => h y (List.mem_cons_of_mem _ hy)) (n + 1)]
    congr 1
    simp only [List.length_cons]
    omega

theorem parseStep_prop {opts : IniOptions} {line sec : Str} {k v : Str}
    (hT : trimList line ≠ [])
    (hC : opts.CommentStart.isPrefixOf (trimList line) = false)
    (hS : sectionCapture (stripInlineComments opts (trimList line)) = none)
    (hP : propMatch opts (stripInlineComments opts (trimList line)) = some (k, v))
    (hG : ¬(sec = GLOBAL_SECTION ∧ opts.AllowGlobalSection = false))
    (m : SectionMap) (n : Nat) :
    parseStep opts line sec m n =
      if (stripQuotes opts (if opts.TrimProperties then trimList v else v)).length > 0 ∨
          opts.DiscardPropertiesWithNoValue = false then
        .ok (addProp opts m sec
          (if opts.TrimProperties then trimList k else k)
          (stripQuotes opts (if opts.TrimProperties then trimList v else v)), sec)
      else .ok (m, sec) := by
  unfold parseStep
  rw [if_neg (by simp [hT]), if_neg (by simp [hT, hC]), hS, hP]
  simp only []
  rw [if_neg hG]

theorem parseStep_prop_global {opts : IniOptions} {line sec : Str} {k v : Str}
    (hT : trimList line ≠ [])
    (hC : opts.CommentStart.isPrefixOf (trimList line) = false)
    (hS : sectionCapture (stripInlineComments opts (trimList line)) = none)
    (hP : propMatch opts (stripInlineComments opts (trimList line)) = some (k, v))
    (hG : sec = GLOBAL_SECTION ∧ opts.AllowGlobalSection = false)
    (m : SectionMap) (n : Nat) :
    parseStep opts line sec m n = .error (msgGlobalForbidden n) := by
  unfold parseStep
  rw [if_neg (by simp [hT]), if_neg (by simp [hT, hC]), hS, hP]
  simp only []
  rw [if_pos hG]

/-- C9: each or-zero accessor (`ValueOrZero`, `ValueOrZeroAsFloat64`,
`ValueOrZeroAsInt64`, `ValueOrZeroAsUint64`, `ValueOrZeroAsBool`) returns
the value of the corresponding error-returning accessor when that
accessor succeeds, and the type's zero value (`""`, `0`, `0`, `0`,
`false`) whenever it returns any error, never propagating the error. -/
theorem or_zero_accessors_swallow_errors (ic : IniConfig) (s p : Str) :
    ((∃ v, ic.Value s p = .ok v ∧ ic.ValueOrZero s p = v) ∨
      ((∃ e, ic.Value s p = .error e) ∧ ic.ValueOrZero s p = [])) ∧
    ((∃ v, ic.ValueAsFloat64 s p = .ok v ∧ ic.ValueOrZeroAsFloat64 s p = v) ∨
      ((∃ e, ic.ValueAsFloat64 s p = .error e) ∧ ic.ValueOrZeroAsFloat64 s p = 0)) ∧
    ((∃ v, ic.ValueAsInt64 s p = .ok v ∧ ic.ValueOrZeroAsInt64 s p = v) ∨
      ((∃ e, ic.ValueAsInt64 s p = .error e) ∧ ic.ValueOrZeroAsInt64 s p = 0)) ∧
    ((∃ v, ic.ValueAsUint64 s p = .ok v ∧ ic.ValueOrZeroAsUint64 s p = v) ∨
      ((∃ e, ic.ValueAsUint64 s p = .error e) ∧ ic.ValueOrZeroAsUint64 s p = 0)) ∧
    ((∃ v, ic.ValueAsBool s p = .ok v ∧ ic.ValueOrZeroAsBool s p = v) ∨
      ((∃ e, ic.ValueAsBool s p = .error e) ∧ ic.ValueOrZeroAsBool s p = false)) := by
  refine ⟨?_, ?_, ?_, ?_, ?_⟩
  · cases h : ic.Value s p with
    | ok v => exact Or.inl ⟨v, rfl, by simp [IniConfig.ValueOrZero, h]⟩
    | error e => exact Or.inr ⟨⟨e, rfl⟩, by simp [IniConfig.ValueOrZero, h]⟩
  · cases h : ic.ValueAsFloat64 s p with
    | ok v => exact Or.inl ⟨v, rfl, by simp [IniConfig.ValueOrZeroAsFloat64, h]⟩
    | error e => exact Or.inr ⟨⟨e, rfl⟩, by simp [IniConfig.ValueOrZeroAsFloat64, h]⟩
  · cases h : ic.ValueAsInt64 s p with
    | ok v => exact Or.inl ⟨v, rfl, by simp [IniConfig.ValueOrZeroAsInt64, h]⟩
    | error e => exact Or.inr ⟨⟨e, rfl⟩, by simp [IniConfig.ValueOrZeroAsInt64, h]⟩
  · cases h : ic.ValueAsUint64 s p with
    | ok v => exact Or.inl ⟨v, rfl, by simp [IniConfig.ValueOrZeroAsUint64, h]⟩
    | error e => exact Or.inr ⟨⟨e, rfl⟩, by simp [IniConfig.ValueOrZeroAsUint64, h]⟩
  · cases h : ic.ValueAsBool s p with
    | ok v => exact Or.inl ⟨v, rfl, by simp [IniConfig.ValueOrZeroAsBool, h]⟩
    | error e => exact Or.inr ⟨⟨e, rfl⟩, by simp [IniConfig.ValueOrZeroAsBool, h]⟩

/-- C7: with `StripEnclosingQuotes` set, a value of length at least 2
whose first and last characters both equal one configured quote symbol
loses exactly its first and last character (one layer only); every value
shorter than 2 characters, and every value not so enclosed, is returned
unchanged. -/
theorem stripQuotes_one_layer (opts : IniOptions) (v : Str)
    (hq : opts.StripEnclosingQuotes = true) :
    (2 ≤ v.length →
      (∃ r ∈ opts.EnclosingQuoteSymbols, v.head? = some r ∧ v.getLast? = some r) →
      stripQuotes opts v = (v.drop 1).dropLast) ∧
    (v.length < 2 → stripQuotes opts v = v) ∧
    ((¬∃ r ∈ opts.EnclosingQuoteSymbols, v.head? = some r ∧ v.getLast? = some r) →
      stripQuotes opts v = v) := by
  refine ⟨?_, ?_, ?_⟩
  · intro h2 hex
    unfold stripQuotes
    rw [if_neg (by simp [hq]; omega)]
    exact quoteScan_strip v _ hex
  · intro h2
    unfold stripQuotes
    rw [if_pos (Or.inr h2)]
  · intro hnex
    by_cases h2 : v.length < 2
    · unfold stripQuotes
      rw [if_pos (Or.inr h2)]
    · unfold stripQuotes
      rw [if_neg (by simp [hq]; omega)]
      push_neg at hnex
      exact quoteScan_id v _ (fun r hr => by
        intro hc
        exact (hnex r hr hc.1) hc.2)

/-- Witness for `stripQuotes_one_layer`: `'ab'` loses its quotes, a
one-character value stays, and a value with mismatched ends stays. -/
theorem stripQuotes_one_layer_witness :
    stripQuotes quoteOpts (strL "'ab'") = strL "ab" ∧
    stripQuotes quoteOpts (strL "x") = strL "x" ∧
    stripQuotes quoteOpts (strL "'ab\"") = strL "'ab\"" := by
  refine ⟨?_, ?_, ?_⟩
  · have h := (stripQuotes_one_layer quoteOpts (strL "'ab'") rfl).1 (by decide)
      ⟨'\'', by decide, by decide, by decide⟩
    simpa using h
  · exact (stripQuotes_one_layer quoteOpts (strL "x") rfl).2.1 (by decide)
  · exact (stripQuotes_one_layer quoteOpts (strL "'ab\"") rfl).2.2 (by decide)

theorem valueAsBool_strict_eq {ic : IniConfig} {s p v : Str}
    (hgo : ic.options.UseGoBoolRules = false) (hv : ic.Value s p = .ok v) :
    ic.ValueAsBool s p =
      if (if ic.options.StrictBoolCaseSensitive then v else upperStr v) =
          (if ic.options.StrictBoolCaseSensitive then ic.options.StrictBoolTrue
            else upperStr ic.options.StrictBoolTrue) then .ok true
      else if (if ic.options.StrictBoolCaseSensitive then v else upperStr v) =
          (if ic.options.StrictBoolCaseSensitive then ic.options.StrictBoolFalse
            else upperStr ic.options.StrictBoolFalse) then .ok false
      else .error (msgStrictBool s p v ic.options.StrictBoolTrue ic.options.StrictBoolFalse) := by
  simp only [IniConfig.ValueAsBool, hv, hgo, Bool.false_eq_true, if_false]

theorem strictMatch_iff {opts : IniOptions} {t v : Str} :
    strictMatch opts t v ↔
      (if opts.StrictBoolCaseSensitive then v else upperStr v) =
        (if opts.StrictBoolCaseSensitive then t else upperStr t) := by
  cases hsc : opts.StrictBoolCaseSensitive <;> simp [strictMatch, hsc]

/-- C3: with `UseGoBoolRules=false`, `ValueAsBool` of a stored value `v`
yields `true` when `v` matches `StrictBoolTrue`, `false` when it matches
`StrictBoolFalse` (exact equality when `StrictBoolCaseSensitive`,
otherwise equality after uppercasing both sides), and otherwise an error
whose text names both configured target strings; in particular under
`StrictBoolTrue="True"`, `StrictBoolFalse="False"`,
`StrictBoolCaseSensitive=false`, both `"true"` and `"TRUE"` convert to
`true` and `"1"` fails. -/
theorem valueAsBool_strict_mode :
    (∀ (ic : IniConfig) (s p v : Str), ic.options.UseGoBoolRules = false →
      ic.Value s p = .ok v →
      (strictMatch ic.options ic.options.StrictBoolTrue v →
        ic.ValueAsBool s p = .ok true) ∧
      (¬strictMatch ic.options ic.options.StrictBoolTrue v →
        strictMatch ic.options ic.options.StrictBoolFalse v →
        ic.ValueAsBool s p = .ok false) ∧
      (¬strictMatch ic.options ic.options.StrictBoolTrue v →
        ¬strictMatch ic.options ic.options.StrictBoolFalse v →
        ic.ValueAsBool s p =
          .error (msgStrictBool s p v ic.options.StrictBoolTrue ic.options.StrictBoolFalse))) ∧
    (∀ s p v t f : Str, ∃ a b c : Str, msgStrictBool s p v t f = a ++ t ++ b ++ f ++ c) ∧
    strictCfg.ValueAsBool (strL "s") (strL "a") = .ok true ∧
    strictCfg.ValueAsBool (strL "s") (strL "b") = .ok true ∧
    strictCfg.ValueAsBool (strL "s") (strL "c") =
      .error (msgStrictBool (strL "s") (strL "c") (strL "1") (strL "True") (strL "False")) := by
  refine ⟨?_, ?_, by decide, by decide, by decide⟩
  · intro ic s p v hgo hv
    rw [valueAsBool_strict_eq hgo hv] at *
    refine ⟨?_, ?_, ?_⟩
    · intro ht
      rw [if_pos (strictMatch_iff.mp ht)]
    · intro hnt hf
      rw [if_neg (fun hc => hnt (strictMatch_iff.mpr hc)),
        if_pos (strictMatch_iff.mp hf)]
    · intro hnt hnf
      rw [if_neg (fun hc => hnt (strictMatch_iff.mpr hc)),
        if_neg (fun hc => hnf (strictMatch_iff.mpr hc))]
  · intro s p v t f
    refine ⟨strL "Value of [" ++ s ++ strL "]." ++ p ++ strL " (" ++ v ++
      strL ") could not be matched to ", strL " or ", [], ?_⟩
    simp [msgStrictBool]

/-- Witness for `valueAsBool_strict_mode`: the three strict-mode outcomes
at the concrete store `strictCfg`, with its case-insensitive matching. -/
theorem valueAsBool_strict_mode_witness :
    strictCfg.ValueAsBool (strL "s") (strL "a") = .ok true ∧
    strictCfg.ValueAsBool (strL "s") (strL "c") =
      .error (msgStrictBool (strL "s") (strL "c") (strL "1") (strL "True") (strL "False")) := by
  have h := (valueAsBool_strict_mode.1 strictCfg (strL "s") (strL "a") (strL "true")
    rfl (by decide))
  have h2 := (valueAsBool_strict_mode.1 strictCfg (strL "s") (strL "c") (strL "1")
    rfl (by decide))
  exact ⟨h.1 (by decide), h2.2.2 (by decide) (by decide)⟩

theorem storeSet_addProp {opts : IniOptions} {m : SectionMap}
    (hm : storeSet m = true) (s p v : Str) :
    storeSet (addProp opts m s p v) = true := by
  simp only [storeSet, List.all_eq_true] at hm ⊢
  unfold addProp
  cases h : alookup (normalise opts s) m with
  | none =>
    intro sec hsec
    rcases mem_ainsert hsec with h' | h'
    · subst h'
      intro pr hpr
      simp only [List.mem_singleton] at hpr
      subst hpr
      rfl
    · exact hm sec h'
  | some stored =>
    intro sec hsec
    rcases mem_ainsert hsec with h' | h'
    · subst h'
      intro pr hpr
      rcases mem_ainsert hpr with h'' | h''
      · subst h''; rfl
      · exact hm _ (alookup_mem h) pr h''
    · exact hm sec h'

theorem storeSet_parseStep {opts : IniOptions} {line sec : Str}
    {m m' : SectionMap} {sec' : Str} {n : Nat}
    (hm : storeSet m = true)
    (h : parseStep opts line sec m n = .ok (m', sec')) :
    storeSet m' = true := by
  unfold parseStep at h
  repeat' split at h
  all_goals cases h
  all_goals first
    | exact hm
    | exact storeSet_addProp hm ..

theorem storeSet_parseLoop {opts : IniOptions} {lines : List Str} {sec : Str}
    {m : SectionMap} {n : Nat} {st : SectionMap × Str × Nat}
    (hm : storeSet m = true)
    (h : parseLoop opts lines sec m n = .ok st) :
    storeSet st.1 = true := by
  induction lines generalizing sec m n with
  | nil =>
    unfold parseLoop at h
    cases h
    exact hm
  | cons x xs ih =>
    unfold parseLoop at h
    cases hs : parseStep opts x sec m (n + 1) with
    | error e => rw [hs] at h; cases h
    | ok st' =>
      rw [hs] at h
      obtain ⟨m2, sec2⟩ := st'
      exact ih (storeSet_parseStep hm hs) h

/-- C10: in every store reachable through parsing and `Add`, every stored
property value cell has its `set` flag true — the only insertion path
builds the cell through `Set` — so an existing property always reports an
explicitly set value, even when that value is the empty string. -/
theorem stored_values_always_set :
    (∀ (file : Option (List Str)) (options : Option IniOptions) (ic : IniConfig),
      NewIniConfigFromFileWithOptions file options = .ok ic →
      storeSet ic.sections = true) ∧
    (∀ (ic : IniConfig) (s p v : Str), storeSet ic.sections = true →
      storeSet ((ic.Add s p v).sections) = true) := by
  constructor
  · intro file options ic h
    cases file with
    | none =>
      simp only [NewIniConfigFromFileWithOptions] at h
      cases h
    | some lines =>
      cases options with
      | none =>
        simp only [NewIniConfigFromFileWithOptions] at h
        cases h
      | some opts =>
        simp only [NewIniConfigFromFileWithOptions] at h
        split at h
        · cases h
        · cases hp : parseLines opts lines with
          | error e => rw [hp] at h; cases h
          | ok m =>
            rw [hp] at h
            cases h
            unfold parseLines at hp
            cases hl : parseLoop opts lines GLOBAL_SECTION [] 0 with
            | error e => rw [hl] at hp; cases hp
            | ok st =>
              rw [hl] at hp
              simp only [Except.map] at hp
              cases hp
              exact storeSet_parseLoop (by rfl) hl
  · intro ic s p v hm
    exact storeSet_addProp hm s p v

/-- Witness for `stored_values_always_set`: a parsed one-property store
and an `Add` on a concrete store both satisfy the flag invariant. -/
theorem stored_values_always_set_witness :
    storeSet ((strictCfg.Add (strL "s2") (strL "x") []).sections) = true := by
  exact stored_values_always_set.2 strictCfg (strL "s2") (strL "x") [] (by decide)

/-- C4: the first line-classification failure aborts the whole parse —
the constructor returns exactly that error for any continuation of the
input, and (`Except` being the result type) no partial store accompanies
it; structural validation happens before any line is read: a nil file, a
nil options object and a blank comment marker each produce a fixed
configuration error that does not depend on the input lines at all. -/
theorem first_failure_aborts_parse :
    (∀ (opts : IniOptions) (lines1 lines2 : List Str) (e : Str),
      (trimList opts.CommentStart).length ≠ 0 →
      parseLines opts lines1 = .error e →
      NewIniConfigFromFileWithOptions (some (lines1 ++ lines2)) (some opts) = .error e) ∧
    (∀ options, NewIniConfigFromFileWithOptions none options =
      .error (strL "Nil file provided")) ∧
    (∀ lines, NewIniConfigFromFileWithOptions (some lines) none =
      .error (strL "Nil IniOptions provided")) ∧
    (∀ lines opts, (trimList opts.CommentStart).length = 0 →
      NewIniConfigFromFileWithOptions (some lines) (some opts) =
        .error (strL "CommentStart field in IniOptions cannot be empty")) := by
  refine ⟨?_, ?_, ?_, ?_⟩
  · intro opts lines1 lines2 e hcs hp
    unfold parseLines at hp
    cases hl : parseLoop opts lines1 GLOBAL_SECTION [] 0 with
    | ok st =>
      rw [hl] at hp
      simp [Except.map] at hp
    | error e' =>
      rw [hl] at hp
      simp only [Except.map] at hp
      cases hp
      simp only [NewIniConfigFromFileWithOptions]
      rw [if_neg (by simpa using hcs)]
      unfold parseLines
      rw [parseLoop_append, hl]
      rfl
  · intro options; rfl
  · intro lines; rfl
  · intro lines opts h0
    simp only [NewIniConfigFromFileWithOptions]
    rw [if_pos h0]

/-- Witness for `first_failure_aborts_parse`: an unparseable first line
aborts before a valid second line is consumed, and a blank (all
whitespace) comment marker fails with the configuration error. -/
theorem first_failure_aborts_parse_witness :
    NewIniConfigFromFileWithOptions (some [strL "???", strL "a=b"])
      (some DefaultIniOptions) = .error (msgUnparseable 1) ∧
    NewIniConfigFromFileWithOptions (some [strL "a=b"])
      (some { DefaultIniOptions with CommentStart := strL " " }) =
      .error (strL "CommentStart field in IniOptions cannot be empty") := by
  constructor
  · exact first_failure_aborts_parse.1 DefaultIniOptions [strL "???"] [strL "a=b"]
      (msgUnparseable 1) (by decide) (by decide)
  · exact first_failure_aborts_parse.2.2.2 [strL "a=b"] _ (by decide)

/-- C1 fails as stated: the line `k=[v]` is a well-formed `key=value`
line under the default configuration whose value `[v]` holds `'['` and
`']'`, but the parser classifies it as a section header (the section
check runs first and `\[(.*)\]` matches anywhere in the line), so parsing
succeeds while `PropertyExists` on the current (global) section and key
`k` is false, not true. -/
theorem default_roundtrip_counterexample :
    Except.map (fun ic => ic.PropertyExists GLOBAL_SECTION (strL "k"))
      (NewIniConfigFromFileWithOptions (some [strL "k=[v]"]) (some DefaultIniOptions)) =
      .ok false := by decide

/-- C1 (amended): for every input line of the form `key=value` that is
well-formed under the default configuration — non-blank, not a comment,
with a non-empty trimmed value — and that does not also match the section
pattern (no `'['` followed by a later `']'`; values may still hold one of
the brackets, or `']'` before `'['`), parsing succeeds and afterwards
`PropertyExists(currentSection, key)` is true and
`Value(currentSection, key)` returns exactly the whitespace-trimmed value
text from the line. -/
theorem default_roundtrip_amended (l k v : Str)
    (hT : trimList l ≠ [])
    (hC : List.isPrefixOf (strL ";") (trimList l) = false)
    (hS : sectionCapture (trimList l) = none)
    (hP : splitAtFirst '=' (trimList l) = some (k, v))
    (hV : trimList v ≠ []) :
    ∃ ic, NewIniConfigFromFileWithOptions (some [l]) (some DefaultIniOptions) = .ok ic ∧
      ic.PropertyExists GLOBAL_SECTION (trimList k) = true ∧
      ic.Value GLOBAL_SECTION (trimList k) = .ok (trimList v) := by
  have hstrip : stripInlineComments DefaultIniOptions (trimList l) = trimList l :=
    stripInline_off rfl _
  have hS' : sectionCapture (stripInlineComments DefaultIniOptions (trimList l)) = none := by
    rw [hstrip]; exact hS
  have hPM : propMatch DefaultIniOptions (trimList l) = equalsPropMatch (trimList l) := rfl
  have hP' : propMatch DefaultIniOptions (stripInlineComments DefaultIniOptions (trimList l)) =
      some (k, v) := by
    rw [hstrip, hPM]; exact hP
  have hG : ¬(GLOBAL_SECTION = GLOBAL_SECTION ∧
      DefaultIniOptions.AllowGlobalSection = false) := by simp [DefaultIniOptions]
  have hstep := parseStep_prop hT hC hS' hP' hG ([] : SectionMap) 1
  have hTP : (if DefaultIniOptions.TrimProperties = true then trimList v else v) =
      trimList v := if_pos rfl
  rw [hTP, stripQuotes_off rfl] at hstep
  rw [if_pos (Or.inl (by simpa using List.length_pos.mpr hV))] at hstep
  have hTPk : (if DefaultIniOptions.TrimProperties = true then trimList k else k) =
      trimList k := if_pos rfl
  rw [hTPk] at hstep
  refine ⟨IniConfig.mk [(GLOBAL_SECTION,
    [(trimList k, newNilableString (trimList v))])] DefaultIniOptions, ?_, ?_, ?_⟩
  · simp only [NewIniConfigFromFileWithOptions]
    rw [if_neg (by decide)]
    unfold parseLines parseLoop parseLoop
    rw [hstep]
    rfl
  · simp [IniConfig.PropertyExists, IniConfig.findSection, alookup, normalise,
      DefaultIniOptions]
  · simp [IniConfig.Value, IniConfig.findSection, alookup, normalise,
      DefaultIniOptions, NilableString.String, newNilableString, NilableString.Set]

/-- Witness for `default_roundtrip_amended`: the line
`" key = some value "` round-trips to the trimmed key and value. -/
theorem default_roundtrip_witness :
    Except.map (fun ic => (ic.PropertyExists GLOBAL_SECTION (strL "key"),
        ic.Value GLOBAL_SECTION (strL "key")))
      (NewIniConfigFromFileWithOptions (some [strL " key = some value "])
        (some DefaultIniOptions)) = .ok (true, .ok (strL "some value")) := by
  obtain ⟨ic, hok, hpe, hv⟩ := default_roundtrip_amended (strL " key = some value ")
    (strL "key ") (strL " some value")
    (by decide) (by decide) (by decide) (by decide) (by decide)
  have h1 : trimList (strL "key ") = strL "key" := by decide
  have h2 : trimList (strL " some value") = strL "some value" := by decide
  rw [h1] at hpe hv
  rw [h2] at hv
  rw [hok]
  simp only [Except.map, hpe, hv]

/-- C8: a property line reached before any section header (every earlier
line being blank or a comment) makes the parse fail with the
outside-section error when `AllowGlobalSection` is false; with it true
the parse succeeds and the property is stored under the reserved
empty-string section key and is retrievable through the empty-string
section name. -/
theorem global_section_gate :
    (∀ (opts : IniOptions) (pre : List Str) (l : Str) (rest : List Str) (k v : Str),
      (trimList opts.CommentStart).length ≠ 0 →
      (∀ x ∈ pre, skippable opts x) →
      trimList l ≠ [] →
      opts.CommentStart.isPrefixOf (trimList l) = false →
      sectionCapture (stripInlineComments opts (trimList l)) = none →
      propMatch opts (stripInlineComments opts (trimList l)) = some (k, v) →
      opts.AllowGlobalSection = false →
      NewIniConfigFromFileWithOptions (some (pre ++ l :: rest)) (some opts) =
        .error (msgGlobalForbidden (pre.length + 1))) ∧
    (∀ (opts : IniOptions) (pre : List Str) (l : Str) (k v : Str),
      (trimList opts.CommentStart).length ≠ 0 →
      (∀ x ∈ pre, skippable opts x) →
      trimList l ≠ [] →
      opts.CommentStart.isPrefixOf (trimList l) = false →
      sectionCapture (stripInlineComments opts (trimList l)) = none →
      propMatch opts (stripInlineComments opts (trimList l)) = some (k, v) →
      opts.AllowGlobalSection = true →
      (stripQuotes opts (if opts.TrimProperties = true then trimList v else v)).length > 0 ∨
        opts.DiscardPropertiesWithNoValue = false →
      ∃ ic, NewIniConfigFromFileWithOptions (some (pre ++ [l])) (some opts) = .ok ic ∧
        ic.PropertyExists GLOBAL_SECTION
          (if opts.TrimProperties = true then trimList k else k) = true ∧
        ic.Value GLOBAL_SECTION
          (if opts.TrimProperties = true then trimList k else k) =
          .ok (stripQuotes opts (if opts.TrimProperties = true then trimList v else v))) := by
  constructor
  · intro opts pre l rest k v hcs hpre hT hC hS hP hden
    simp only [NewIniConfigFromFileWithOptions]
    rw [if_neg (by simpa using hcs)]
    unfold parseLines
    rw [parseLoop_skipAll hpre (l :: rest) GLOBAL_SECTION [] 0]
    unfold parseLoop
    rw [parseStep_prop_global hT hC hS hP ⟨rfl, hden⟩]
    simp [Except.map, Nat.zero_add]
  · intro opts pre l k v hcs hpre hT hC hS hP hag hstore
    have hG : ¬(GLOBAL_SECTION = GLOBAL_SECTION ∧ opts.AllowGlobalSection = false) := by
      simp [hag]
    have hstep := parseStep_prop hT hC hS hP hG ([] : SectionMap) (pre.length + 1)
    rw [if_pos hstore] at hstep
    refine ⟨IniConfig.mk
      (addProp opts [] GLOBAL_SECTION
        (if opts.TrimProperties = true then trimList k else k)
        (stripQuotes opts (if opts.TrimProperties = true then trimList v else v))) opts,
      ?_, ?_, ?_⟩
    · simp only [NewIniConfigFromFileWithOptions]
      rw [if_neg (by simpa using hcs)]
      unfold parseLines
      rw [parseLoop_skipAll hpre [l] GLOBAL_SECTION [] 0]
      unfold parseLoop
      rw [Nat.zero_add, hstep]
      rfl
    · simp [IniConfig.PropertyExists, IniConfig.findSection, addProp, alookup, ainsert]
    · simp [IniConfig.Value, IniConfig.findSection, addProp, alookup, ainsert,
        NilableString.String, newNilableString, NilableString.Set]

/-- Witness for `global_section_gate`: a comment line then `a=b` fails at
line 2 when the global section is forbidden, and the single line `a=b`
stores `a` in the empty-string section under the default options. -/
theorem global_section_gate_witness :
    NewIniConfigFromFileWithOptions (some [strL ";c", strL "a=b"]) (some noGlobalOpts) =
      .error (msgGlobalForbidden 2) ∧
    Except.map (fun ic => (ic.PropertyExists GLOBAL_SECTION (strL "a"),
        ic.Value GLOBAL_SECTION (strL "a")))
      (NewIniConfigFromFileWithOptions (some [strL "a=b"]) (some DefaultIniOptions)) =
      .ok (true, .ok (strL "b")) := by
  constructor
  · have h := global_section_gate.1 noGlobalOpts [strL ";c"] (strL "a=b") []
      (strL "a") (strL "b") (by decide) (by decide) (by decide) (by decide)
      (by decide) (by decide) rfl
    simpa using h
  · obtain ⟨ic, hok, hpe, hv⟩ := global_section_gate.2 DefaultIniOptions []
      (strL "a=b") (strL "a") (strL "b") (by decide) (by decide) (by decide)
      (by decide) (by decide) (by decide) rfl (by decide)
    have h1 : (if DefaultIniOptions.TrimProperties = true
        then trimList (strL "a") else strL "a") = strL "a" := by decide
    have h2 : stripQuotes DefaultIniOptions (if DefaultIniOptions.TrimProperties = true
        then trimList (strL "b") else strL "b") = strL "b" := by decide
    rw [h1] at hpe hv
    rw [h2] at hv
    rw [show ([] : List Str) ++ [strL "a=b"] = [strL "a=b"] from rfl] at hok
    rw [hok]
    simp only [Except.map, hpe, hv]

theorem splitSegs_ne_nil (l : Str) : splitSegs l ≠ [] := by
  induction l with
  | nil => simp [splitSegs]
  | cons c rest ih =>
    simp only [splitSegs]
    cases h : splitSegs rest with
    | nil => simp
    | cons seg segs => by_cases hc : c = '=' <;> simp [hc]

theorem splitSegs_no_eq (l : Str) : ∀ seg ∈ splitSegs l, '=' ∉ seg := by
  induction l with
  | nil =>
    intro seg hseg
    simp only [splitSegs, List.mem_singleton] at hseg
    simp [hseg]
  | cons c rest ih =>
    intro seg hseg
    simp only [splitSegs] at hseg
    cases h : splitSegs rest with
    | nil => exact absurd h (splitSegs_ne_nil rest)
    | cons s0 segs =>
      rw [h] at hseg
      simp only [] at hseg
      by_cases hc : c = '='
      · rw [if_pos hc] at hseg
        rcases List.mem_cons.mp hseg with h' | h'
        · simp [h']
        · exact ih seg (h ▸ h')
      · rw [if_neg hc] at hseg
        rcases List.mem_cons.mp hseg with h' | h'
        · subst h'
          simp only [List.mem_cons, not_or]
          exact ⟨fun he => hc he.symm, ih s0 (h ▸ List.mem_cons_self s0 segs)⟩
        · exact ih seg (h ▸ List.mem_cons_of_mem s0 h')

theorem splitSegs_subset (l : Str) :
    ∀ seg ∈ splitSegs l, ∀ c ∈ seg, c ∈ l := by
  induction l with
  | nil =>
    intro seg hseg
    simp only [splitSegs, List.mem_singleton] at hseg
    simp [hseg]
  | cons c rest ih =>
    intro seg hseg d hd
    simp only [splitSegs] at hseg
    cases h : splitSegs rest with
    | nil => exact absurd h (splitSegs_ne_nil rest)
    | cons s0 segs =>
      rw [h] at hseg
      simp only [] at hseg
      by_cases hc : c = '='
      · rw [if_pos hc] at hseg
        rcases List.mem_cons.mp hseg with h' | h'
        · subst h'; cases hd
        · exact List.mem_cons_of_mem c (ih seg (h ▸ h') d hd)
      · rw [if_neg hc] at hseg
        rcases List.mem_cons.mp hseg with h' | h'
        · subst h'
          rcases List.mem_cons.mp hd with h'' | h''
          · simp [h'']
          · exact List.mem_cons_of_mem c
              (ih s0 (h ▸ List.mem_cons_self s0 segs) d h'')
        · exact List.mem_cons_of_mem c (ih seg (h ▸ List.mem_cons_of_mem s0 h') d hd)

theorem splitSegs_join (l : Str) : joinEq (splitSegs l) = l := by
  induction l with
  | nil => rfl
  | cons c rest ih =>
    simp only [splitSegs]
    cases h : splitSegs rest with
    | nil => exact absurd h (splitSegs_ne_nil rest)
    | cons s0 segs =>
      rw [h] at ih
      simp only []
      by_cases hc : c = '='
      · rw [if_pos hc]
        simp only [joinEq] at ih ⊢
        rw [ih, hc]
        simp
      · rw [if_neg hc]
        cases segs with
        | nil =>
          simp only [joinEq] at ih ⊢
          rw [ih]
        | cons s1 segs' =>
          simp only [joinEq] at ih ⊢
          rw [← ih]
          simp

theorem colonScan_none_of (segs : List Str) (h : ∀ seg ∈ segs, ':' ∉ seg) :
    colonScan segs = none := by
  induction segs with
  | nil => rfl
  | cons s0 segs ih =>
    simp only [colonScan]
    cases hs : splitAtLast ':' s0 with
    | some p =>
      have := (splitAtLast_some_iff ':' s0 p.1 p.2).mp (by rw [hs])
      exact absurd (this.1 ▸ (List.mem_append.mpr (Or.inr (List.mem_cons_self _ _))))
        (h s0 (List.mem_cons_self s0 segs))
    | none => exact ih (fun seg hseg => h seg (List.mem_cons_of_mem s0 hseg))

theorem takeWhile_all_append (p : Char → Bool) (v w : Str)
    (h : ∀ c ∈ v, p c = true) :
    List.takeWhile p (v ++ w) = v ++ List.takeWhile p w := by
  induction v with
  | nil => simp
  | cons c cs ih =>
    simp only [List.cons_append, List.takeWhile_cons, h c (List.mem_cons_self c cs),
      if_true]
    rw [ih (fun d hd => h d (List.mem_cons_of_mem c hd))]

theorem colonScan_some (segs : List Str) (k v : Str)
    (hne : ∀ seg ∈ segs, '=' ∉ seg)
    (h : colonScan segs = some (k, v)) :
    ∃ pre, joinEq segs = pre ++ k ++ ':' :: v ∧ ':' ∉ pre ∧ '=' ∉ k ∧
      ':' ∉ v.takeWhile (fun c => !(c == '=')) := by
  induction segs with
  | nil => cases h
  | cons s0 segs ih =>
    simp only [colonScan] at h
    cases hs : splitAtLast ':' s0 with
    | some p =>
      obtain ⟨k0, v0⟩ := p
      rw [hs] at h
      simp only [Option.some_inj, Prod.mk.injEq] at h
      obtain ⟨hk, hv⟩ := h
      subst hk
      have hdec := (splitAtLast_some_iff ':' s0 k0 v0).mp hs
      have hs0ne : '=' ∉ s0 := hne s0 (List.mem_cons_self s0 segs)
      have hv0ne : '=' ∉ v0 := fun hc =>
        hs0ne (hdec.1 ▸ List.mem_append.mpr (Or.inr (List.mem_cons_of_mem _ hc)))
      have hkne : '=' ∉ k0 := fun hc =>
        hs0ne (hdec.1 ▸ List.mem_append.mpr (Or.inl hc))
      refine ⟨[], ?_, by simp, hkne, ?_⟩
      · cases segs with
        | nil =>
          simp only [joinEq]
          rw [hdec.1, ← hv]
          simp
        | cons s1 segs' =>
          simp only [joinEq]
          rw [hdec.1, ← hv]
          simp
      · have hall : ∀ c ∈ v0, (fun c => !(c == '=')) c = true := by
          intro c hc
          simp only [Bool.not_eq_true', beq_eq_false_iff_ne]
          intro he
          exact hv0ne (he ▸ hc)
        rw [← hv]
        cases segs with
        | nil =>
          simp only [List.append_nil]
          rw [List.takeWhile_eq_self_iff.mpr hall]
          exact hdec.2
        | cons s1 segs' =>
          rw [takeWhile_all_append _ _ _ hall]
          simp only [List.takeWhile_cons]
          simp only [List.mem_append, not_or]
          refine ⟨hdec.2, ?_⟩
          simp
    | none =>
      rw [hs] at h
      obtain ⟨pre', hj, hp', hk, hv⟩ :=
        ih (fun seg hseg => hne seg (List.mem_cons_of_mem s0 hseg)) h
      have hs0 : ':' ∉ s0 := (splitAtLast_none_iff ':' s0).mp hs
      cases segs with
      | nil => simp [colonScan] at h
      | cons s1 segs' =>
        refine ⟨s0 ++ '=' :: pre', ?_, ?_, hk, hv⟩
        · simp only [joinEq] at hj ⊢
          rw [hj]
          simp
        · simp only [List.mem_append, List.mem_cons, not_or]
          exact ⟨hs0, by simp, hp'⟩

/-- C2 fails as stated: in colon mode the character class of
`rx_colon_property` is `[^=]`, not `[^:]`, so the greedy `([^=]*)` may
run past colons; on the line `a:b:c` the key is `a:b` (everything before
the last colon of the `'='`-free segment), not `a` (everything before the
first separator) — the parse stores property `a:b` with value `c` and no
property `a`. -/
theorem separator_matching_counterexample :
    Except.map (fun ic => (ic.PropertyExists (strL "s") (strL "a"),
        ic.Value (strL "s") (strL "a:b")))
      (NewIniConfigFromFileWithOptions (some [strL "[s]", strL "a:b:c"])
        (some colonOpts)) = .ok (false, .ok (strL "c")) := by decide

/-- C2 (amended): in equals mode the key is everything before the first
`'='` and the value everything after it.  In colon mode the pattern is
`([^=]*):(.*)`: a line with no colon (such as `key=value`) is not matched
as a property and falls to unparseable-line handling, and when a match
exists it lies in the leftmost `'='`-free segment containing a colon,
with the key running to the last colon of that segment (so no further
colon occurs before the next `'='`) and the value being the whole
remainder of the line; `name1:value1` still yields property `name1` with
value `"value1"`. -/
theorem separator_matching_amended :
    (∀ l k v : Str, equalsPropMatch l = some (k, v) ↔ l = k ++ '=' :: v ∧ '=' ∉ k) ∧
    (∀ l : Str, ':' ∉ l → colonPropMatch l = none) ∧
    (∀ l k v : Str, colonPropMatch l = some (k, v) →
      ∃ pre, l = pre ++ k ++ ':' :: v ∧ ':' ∉ pre ∧ '=' ∉ k ∧
        ':' ∉ v.takeWhile (fun c => !(c == '='))) ∧
    Except.map (fun ic => ic.Value (strL "Section1") (strL "name1"))
      (NewIniConfigFromFileWithOptions (some [strL "[Section1]", strL "name1:value1"])
        (some colonOpts)) = .ok (.ok (strL "value1")) ∧
    NewIniConfigFromFileWithOptions (some [strL "k=v"]) (some colonOpts) =
      .error (msgUnparseable 1) := by
  refine ⟨?_, ?_, ?_, by decide, by decide⟩
  · intro l k v
    exact splitAtFirst_some_iff '=' l k v
  · intro l hl
    exact colonScan_none_of (splitSegs l)
      (fun seg hseg hc => hl (splitSegs_subset l seg hseg ':' hc))
  · intro l k v h
    obtain ⟨pre, hj, hp, hk, hv⟩ :=
      colonScan_some (splitSegs l) k v (splitSegs_no_eq l) h
    exact ⟨pre, by rw [← splitSegs_join l, hj], hp, hk, hv⟩

/-- Witness for `separator_matching_amended`: the first-`'='` split on
`a=b=c`, the unmatched colon-mode line `k=v`, and the decomposition of
`a:b:c` around its last colon. -/
theorem separator_matching_witness :
    equalsPropMatch (strL "a=b=c") = some (strL "a", strL "b=c") ∧
    colonPropMatch (strL "k=v") = none ∧
    (∃ pre, strL "a:b:c" = pre ++ strL "a:b" ++ ':' :: strL "c" ∧ ':' ∉ pre ∧
      '=' ∉ strL "a:b" ∧ ':' ∉ (strL "c").takeWhile (fun c => !(c == '='))) := by
  refine ⟨?_, ?_, ?_⟩
  · exact (separator_matching_amended.1 (strL "a=b=c") (strL "a") (strL "b=c")).mpr
      ⟨by decide, by decide⟩
  · exact separator_matching_amended.2.1 (strL "k=v") (by decide)
  · exact separator_matching_amended.2.2.1 (strL "a:b:c") (strL "a:b") (strL "c")
      (by decide)

/-- C6 fails as stated on its second example: the bare line
`a\;b ;real comment` is not a property line — after inline-comment
stripping it reads `a;b `, which matches neither the section nor the
property pattern, so the parse fails as unparseable (storing nothing)
rather than storing the value `a;b`.  (The escape example needs a key,
as in `key=a\;b ;real comment`.) -/
theorem inline_comment_counterexample :
    NewIniConfigFromFileWithOptions (some [strL "a\\;b ;real comment"])
      (some inlineOpts) = .error (msgUnparseable 1) := by decide

/-- C6 (amended): with `AllowInlineComments` set, every line is rewritten
by replacing each occurrence of the escape prefix followed by the
comment-start marker with a placeholder, truncating at the first
remaining comment-start occurrence, and restoring the placeholder to the
literal comment-start text; with `CommentStart=";"`, the line
`host=localhost ;comment` stores value `"localhost"` (after trim), and
the property line `key=a\;b ;real comment` stores value `"a;b"` under
`key`. -/
theorem inline_comment_stripping_amended :
    (∀ (opts : IniOptions) (line : Str), opts.AllowInlineComments = true →
      stripInlineComments opts line =
        replaceAll escPlaceholder opts.CommentStart
          (splitFirstSep opts.CommentStart
            (replaceAll (opts.CommentEscapePrefix ++ opts.CommentStart)
              escPlaceholder line))) ∧
    Except.map (fun ic => ic.Value GLOBAL_SECTION (strL "host"))
      (NewIniConfigFromFileWithOptions (some [strL "host=localhost ;comment"])
        (some inlineOpts)) = .ok (.ok (strL "localhost")) ∧
    Except.map (fun ic => ic.Value GLOBAL_SECTION (strL "key"))
      (NewIniConfigFromFileWithOptions (some [strL "key=a\\;b ;real comment"])
        (some inlineOpts)) = .ok (.ok (strL "a;b")) := by
  refine ⟨?_, by decide, by decide⟩
  intro opts line h
  simp [stripInlineComments, h]

/-- Witness for `inline_comment_stripping_amended`: the pipeline equation
at a concrete configuration and line. -/
theorem inline_comment_stripping_witness :
    stripInlineComments inlineOpts (strL "x=1 ;c") =
      replaceAll escPlaceholder inlineOpts.CommentStart
        (splitFirstSep inlineOpts.CommentStart
          (replaceAll (inlineOpts.CommentEscapePrefix ++ inlineOpts.CommentStart)
            escPlaceholder (strL "x=1 ;c"))) :=
  inline_comment_stripping_amended.1 inlineOpts (strL "x=1 ;c") rfl

theorem findSection_add (ic : IniConfig) (s p v s' : Str) :
    (ic.Add s p v).findSection s' =
      if normalise ic.options s = normalise ic.options s' then
        some (match alookup (normalise ic.options s) ic.sections with
          | none => [(normalise ic.options p, newNilableString v)]
          | some stored => ainsert (normalise ic.options p) (newNilableString v) stored)
      else ic.findSection s' := by
  simp only [IniConfig.findSection, IniConfig.Add, addProp]
  cases h : alookup (normalise ic.options s) ic.sections with
  | none => rw [alookup_ainsert]
  | some stored => rw [alookup_ainsert]

theorem propertyExists_bind (ic : IniConfig) (s p : Str) :
    ic.PropertyExists s p =
      ((ic.findSection s).bind (fun m => alookup (normalise ic.options p) m)).isSome := by
  simp only [IniConfig.PropertyExists]
  cases h : ic.findSection s <;> simp [Option.bind]

theorem propertyExists_add (ic : IniConfig) (s p v s' p' : Str) :
    (ic.Add s p v).PropertyExists s' p' = true ↔
      (normalise ic.options s' = normalise ic.options s ∧
        normalise ic.options p' = normalise ic.options p) ∨
      ic.PropertyExists s' p' = true := by
  have hopt : (ic.Add s p v).options = ic.options := rfl
  rw [propertyExists_bind, propertyExists_bind, hopt, findSection_add]
  by_cases hss : normalise ic.options s = normalise ic.options s'
  · rw [if_pos hss]
    cases h : alookup (normalise ic.options s) ic.sections with
    | none =>
      have hfs : ic.findSection s' = none := by
        simp only [IniConfig.findSection]
        rw [← hss]
        exact h
      rw [hfs]
      simp only [Option.bind, alookup]
      by_cases hpp : normalise ic.options p = normalise ic.options p'
      · rw [if_pos hpp]
        simp [hss.symm, hpp.symm]
      · rw [if_neg hpp]
        have hpp' : ¬(normalise ic.options p' = normalise ic.options p) :=
          fun hc => hpp hc.symm
        simp [alookup, hpp']
    | some stored =>
      have hfs : ic.findSection s' = some stored := by
        simp only [IniConfig.findSection]
        rw [← hss]
        exact h
      rw [hfs]
      simp only [Option.bind]
      rw [alookup_ainsert]
      by_cases hpp : normalise ic.options p = normalise ic.options p'
      · rw [if_pos hpp]
        simp [hss.symm, hpp.symm]
      · rw [if_neg hpp]
        have hpp' : ¬(normalise ic.options p' = normalise ic.options p) :=
          fun hc => hpp hc.symm
        simp [hpp']
  · rw [if_neg hss]
    have hss' : ¬(normalise ic.options s' = normalise ic.options s) :=
      fun hc => hss hc.symm
    simp [hss']

/-- C5: with `CaseSensitive=false`, lookups agree on every pair of names
equal up to letter case — `SectionExists`, `PropertyExists` and (when the
property exists) `Value` give the same results — and an `Add` makes a
property visible exactly through the lower-cased names, names being
lower-cased at insertion and lookup alike; with `CaseSensitive=true` only
the exact inserted spelling (besides anything already present) matches. -/
theorem case_sensitivity_lookup :
    (∀ (ic : IniConfig) (s s' p p' : Str), ic.options.CaseSensitive = false →
      lowerStr s = lowerStr s' → lowerStr p = lowerStr p' →
      ic.SectionExists s = ic.SectionExists s' ∧
      ic.PropertyExists s p = ic.PropertyExists s' p' ∧
      (ic.PropertyExists s p = true → ic.Value s p = ic.Value s' p')) ∧
    (∀ (ic : IniConfig) (s p v s' p' : Str), ic.options.CaseSensitive = false →
      ((ic.Add s p v).PropertyExists s' p' = true ↔
        (lowerStr s' = lowerStr s ∧ lowerStr p' = lowerStr p) ∨
        ic.PropertyExists s' p' = true)) ∧
    (∀ (ic : IniConfig) (s p v s' p' : Str), ic.options.CaseSensitive = true →
      ((ic.Add s p v).PropertyExists s' p' = true ↔
        (s' = s ∧ p' = p) ∨ ic.PropertyExists s' p' = true)) := by
  refine ⟨?_, ?_, ?_⟩
  · intro ic s s' p p' hcs hss hpp
    have hn : ∀ x : Str, normalise ic.options x = lowerStr x := fun x => by
      simp [normalise, hcs]
    refine ⟨?_, ?_, ?_⟩
    · simp [IniConfig.SectionExists, IniConfig.findSection, hn, hss]
    · simp [IniConfig.PropertyExists, IniConfig.findSection, hn, hss, hpp]
    · intro hpe
      simp only [IniConfig.Value, IniConfig.findSection, hn, hss, hpp]
      cases h1 : alookup (lowerStr s') ic.sections with
      | none =>
        simp [IniConfig.PropertyExists, IniConfig.findSection, hn, hss, h1] at hpe
      | some sec =>
        cases h2 : alookup (lowerStr p') sec with
        | none =>
          simp [IniConfig.PropertyExists, IniConfig.findSection, hn, hss, hpp,
            h1, h2] at hpe
        | some ns => simp only [h2]
  · intro ic s p v s' p' hcs
    rw [propertyExists_add]
    simp [normalise, hcs]
  · intro ic s p v s' p' hcs
    rw [propertyExists_add]
    simp [normalise, hcs]

/-- Witness for `case_sensitivity_lookup`: case-variant lookups agree on
the case-insensitive store `[AbC] Key1=v`, and a case variant misses on
the case-sensitive one. -/
theorem case_sensitivity_lookup_witness :
    insensitiveCfg.SectionExists (strL "ABC") = insensitiveCfg.SectionExists (strL "abc") ∧
    insensitiveCfg.PropertyExists (strL "ABC") (strL "KEY1") =
      insensitiveCfg.PropertyExists (strL "abc") (strL "key1") ∧
    insensitiveCfg.Value (strL "ABC") (strL "KEY1") =
      insensitiveCfg.Value (strL "abc") (strL "key1") ∧
    sensitiveCfg.PropertyExists (strL "ABC") (strL "Key1") = false := by
  have h := case_sensitivity_lookup.1 insensitiveCfg (strL "ABC") (strL "abc")
    (strL "KEY1") (strL "key1") rfl (by decide) (by decide)
  refine ⟨h.1, h.2.1, h.2.2 (by decide), ?_⟩
  have h3 := case_sensitivity_lookup.2.2 (IniConfig.mk [] DefaultIniOptions)
    (strL "AbC") (strL "Key1") (strL "v") (strL "ABC") (strL "Key1") rfl
  cases hb : sensitiveCfg.PropertyExists (strL "ABC") (strL "Key1") with
  | false => rfl
  | true =>
    rcases h3.mp hb with ⟨h1, -⟩ | h2
    · exact absurd h1 (by decide)
    · exact absurd h2 (by decide)

end Inifile
